import Mathlib

/-!
Verification of the two concurrency-bearing stores of the pokedexcli
repository: the expiring response cache (internal/pokecache/pokecache.go)
and the caught-creature registry (internal/pokeapi/client.go).

Modelling choices: Go maps become association lists with unique keys
(the well-formedness predicate `MapWF`), byte slices become lists of
bytes, wall-clock times become natural numbers, and a method on a
possibly-nil pointer receiver becomes a function on `Option` of the
store state that returns the new state together with the Go error
value (`Option String`).  The background reaper goroutine started by
`NewCache` is modelled by its tick schedule `reapLoopEvents` and a
trace semantics `runCache` interleaving inserts and sweeps at explicit
times.
-/

/-- Go `[]byte`: a raw byte payload. -/
abbrev Bytes := List Nat

/-- The `cacheEntry` struct of internal/pokecache: creation time and raw data. -/
structure cacheEntry where
  createdAt : Nat
  val : Bytes
  deriving DecidableEq

/-- The `Cache` struct of internal/pokecache: the entry map and the reap
interval.  The mutex field only serialises access and has no sequential
content, so it is dropped from the state. -/
structure Cache where
  cache : List (String × cacheEntry)
  interval : Nat
  deriving DecidableEq

/-- Go map read `m[k]` (comma-ok form): the value at the first matching key. -/
def mapGet {α : Type} (m : List (String × α)) (k : String) : Option α :=
  (m.find? (fun p => p.1 == k)).map Prod.snd

/-- Go map write `m[k] = v`: replaces any existing entry at `k`. -/
def mapUpdate {α : Type} (m : List (String × α)) (k : String) (v : α) :
    List (String × α) :=
  m.filter (fun p => !(p.1 == k)) ++ [(k, v)]

/-- The keys of a Go map model. -/
def mapKeys {α : Type} (m : List (String × α)) : List String := m.map Prod.fst

/-- Well-formedness of a Go map model: keys are unique. -/
abbrev MapWF {α : Type} (m : List (String × α)) : Prop := (mapKeys m).Nodup

/-- `NewCache`: the map starts empty and the interval is stored; the reaper
goroutine it spawns is modelled by the tick events of `reapLoopEvents`. -/
def NewCache (interval : Nat) : Cache := ⟨[], interval⟩

/-- The state effect of one `CacheAdd` on a non-nil cache: overwrite the
entry at `key` with the value and a fresh `createdAt` timestamp (`time.Now()`
is passed in as `now`). -/
def cacheAddState (c : Cache) (now : Nat) (key : String) (v : Bytes) : Cache :=
  ⟨mapUpdate c.cache key ⟨now, v⟩, c.interval⟩

/-- The `CacheAdd` method: a nil receiver yields the Go error, otherwise the
entry is stored and the error is nil.  Returns (new state, error). -/
def CacheAdd (c : Option Cache) (now : Nat) (key : String) (v : Bytes) :
    Option Cache × Option String :=
  match c with
  | none => (none, some "cacheAdd called with nil receiver")
  | some cc => (some (cacheAddState cc now key v), none)

/-- The `CacheGet` method: a nil receiver yields the Go error; otherwise a
comma-ok map read.  Returns (state, data, found, error). -/
def CacheGet (c : Option Cache) (key : String) :
    Option Cache × Option Bytes × Bool × Option String :=
  match c with
  | none => (none, none, false, some "cacheGet called with nil receiver")
  | some cc =>
    match mapGet cc.cache key with
    | none => (some cc, none, false, none)
    | some entry => (some cc, some entry.val, true, none)

/-- One wake of `reapLoop` at time `now`: delete exactly the entries whose
age `now - createdAt` has reached the interval (`time.Since(createdAt) >=
interval`). -/
def reapSweep (c : Cache) (now : Nat) : Cache :=
  ⟨c.cache.filter (fun p => !(decide (c.interval ≤ now - p.2.createdAt))), c.interval⟩

/-- An externally visible cache event: an insert or a reaper tick. -/
inductive Event where
  | add (key : String) (v : Bytes)
  | tick
  deriving DecidableEq

/-- An event together with the wall-clock time at which it runs. -/
structure TimedEvent where
  time : Nat
  ev : Event
  deriving DecidableEq

/-- Apply one timed event to the cache state. -/
def applyEvent (c : Cache) (e : TimedEvent) : Cache :=
  match e.ev with
  | Event.add k v => cacheAddState c e.time k v
  | Event.tick => reapSweep c e.time

/-- Run a sequence of timed events on the cache. -/
def runCache (c : Cache) (es : List TimedEvent) : Cache := es.foldl applyEvent c

/-- The tick schedule of `reapLoop`: `time.NewTicker(interval)` fires at
`interval`, `2*interval`, ...; this is the list of its first `n` wakes. -/
def reapLoopEvents (interval n : Nat) : List TimedEvent :=
  (List.range n).map (fun j => ⟨(j + 1) * interval, Event.tick⟩)

/-- Whether an event list contains an insert of key `k`. -/
def hasAddOf (k : String) (es : List TimedEvent) : Bool :=
  es.any (fun e => match e.ev with
    | Event.add k2 _ => k2 == k
    | Event.tick => false)

/-- The `PokemonStats` struct of internal/pokeapi: name, base experience, id. -/
structure PokemonStats where
  Name : String
  BaseExperience : Int
  ID : Int
  deriving DecidableEq

/-- The `Pokedex` struct of internal/pokeapi: the name-keyed record map
(the RWMutex only serialises access and is dropped from the state). -/
structure Pokedex where
  pokemon : List (String × PokemonStats)
  deriving DecidableEq

/-- `NewPokedex`: the registry starts empty. -/
def NewPokedex : Pokedex := ⟨[]⟩

/-- The `PokemonAdd` method: a nil receiver yields the Go error, otherwise
the record is stored under the name.  Returns (new state, error). -/
def PokemonAdd (p : Option Pokedex) (name : String) (stats : PokemonStats) :
    Option Pokedex × Option String :=
  match p with
  | none => (none, some "PokemonAdd called with nil receiver")
  | some pp => (some ⟨mapUpdate pp.pokemon name stats⟩, none)

/-- The `PokemonGet` method: a nil receiver yields the Go error; otherwise a
comma-ok map read returning the zero-value stats when absent.  Returns
(state, stats, found, error). -/
def PokemonGet (p : Option Pokedex) (name : String) :
    Option Pokedex × PokemonStats × Bool × Option String :=
  match p with
  | none => (none, ⟨"", 0, 0⟩, false, some "PokemonGet called with nil receiver")
  | some pp =>
    match mapGet pp.pokemon name with
    | none => (some pp, ⟨"", 0, 0⟩, false, none)
    | some entry => (some pp, entry, true, none)

/-- Modelled from the spec: `ListNames` (the repository calls it
`PokemonGetAllCaught` from the REPL's pokedex command, but its definition is
not among the repository's files) returns all currently-registered names. -/
def PokemonGetAllCaught (p : Option Pokedex) :
    Option Pokedex × List String × Option String :=
  match p with
  | none => (none, [], some "PokemonGetAllCaught called with nil receiver")
  | some pp => (some pp, mapKeys pp.pokemon, none)

/-- A registry operation issued by the program (REPL commands catch,
inspect, pokedex). -/
inductive RegOp where
  | add (name : String) (stats : PokemonStats)
  | get (name : String)
  | list
  deriving DecidableEq

/-- Apply one registry operation to the registry state. -/
def applyRegOp (p : Option Pokedex) (op : RegOp) : Option Pokedex :=
  match op with
  | RegOp.add n s => (PokemonAdd p n s).1
  | RegOp.get n => (PokemonGet p n).1
  | RegOp.list => (PokemonGetAllCaught p).1

/-- Run a sequence of registry operations. -/
def runReg (p : Option Pokedex) (ops : List RegOp) : Option Pokedex :=
  ops.foldl applyRegOp p

theorem mapGet_cons {α : Type} (p : String × α) (m : List (String × α)) (k : String) :
    mapGet (p :: m) k = if p.1 == k then some p.2 else mapGet m k := by
  simp only [mapGet, List.find?]
  cases h : (p.1 == k) with
  | true => simp [h]
  | false => simp [h]

theorem mapGet_eq_none_of_not_mem {α : Type} (m : List (String × α)) (k : String)
    (h : k ∉ mapKeys m) : mapGet m k = none := by
  induction m with
  | nil => rfl
  | cons p m ih =>
    simp only [mapKeys, List.map_cons, List.mem_cons, not_or] at h
    rw [mapGet_cons]
    have hpk : (p.1 == k) = false := by
      simp only [beq_eq_false_iff_ne]
      exact fun he => h.1 he.symm
    rw [hpk]
    exact ih h.2

theorem mapGet_update_self {α : Type} (m : List (String × α)) (k : String) (v : α) :
    mapGet (mapUpdate m k v) k = some v := by
  induction m with
  | nil => simp [mapUpdate, mapGet_cons, mapGet]
  | cons p m ih =>
    cases hpk : (p.1 == k) with
    | true => simpa [mapUpdate, List.filter_cons, hpk] using ih
    | false =>
      simp only [mapUpdate, List.filter_cons, hpk, Bool.not_false, if_pos]
      rw [List.cons_append, mapGet_cons, hpk]
      simpa [mapUpdate] using ih

theorem mapGet_update_ne {α : Type} (m : List (String × α)) (k k2 : String) (v : α)
    (h : k2 ≠ k) : mapGet (mapUpdate m k v) k2 = mapGet m k2 := by
  induction m with
  | nil =>
    have hk : (k == k2) = false := by
      simp only [beq_eq_false_iff_ne]
      exact fun he => h he.symm
    simp [mapUpdate, mapGet_cons, hk, mapGet]
  | cons p m ih =>
    cases hpk : (p.1 == k) with
    | true =>
      have hp2 : (p.1 == k2) = false := by
        simp only [beq_eq_false_iff_ne]
        have : p.1 = k := by simpa using hpk
        exact fun he => h (by rw [← he, this])
      simp only [mapUpdate, List.filter_cons, hpk, Bool.not_true, if_neg
        (by simp : ¬ (false = true))]
      rw [mapGet_cons, hp2]
      simpa [mapUpdate] using ih
    | false =>
      simp only [mapUpdate, List.filter_cons, hpk, Bool.not_false, if_pos]
      rw [List.cons_append, mapGet_cons, mapGet_cons]
      cases hp2 : (p.1 == k2) with
      | true => rfl
      | false => simpa [mapUpdate] using ih

theorem mapGet_filter_of_get_true {α : Type} (m : List (String × α))
    (f : String × α → Bool) (k : String) (a : α)
    (hget : mapGet m k = some a) (hf : f (k, a) = true) :
    mapGet (m.filter f) k = some a := by
  induction m with
  | nil => simp [mapGet] at hget
  | cons p m ih =>
    rw [mapGet_cons] at hget
    cases hpk : (p.1 == k) with
    | true =>
      rw [hpk, if_pos rfl] at hget
      have hk : p.1 = k := by simpa using hpk
      have ha : p.2 = a := by simpa using hget
      have hfp : f p = true := by
        have : p = (k, a) := by
          cases p
          simp_all
        rw [this]; exact hf
      simp only [List.filter_cons, hfp, if_pos]
      rw [mapGet_cons, hpk]
      simpa using hget
    | false =>
      rw [hpk, if_neg (by simp)] at hget
      cases hfp : f p with
      | true =>
        simp only [List.filter_cons, hfp, if_pos]
        rw [mapGet_cons, hpk]
        exact ih hget
      | false =>
        simp only [List.filter_cons, hfp]
        simpa using ih hget

theorem mapGet_filter_none {α : Type} (m : List (String × α))
    (f : String × α → Bool) (k : String) (hget : mapGet m k = none) :
    mapGet (m.filter f) k = none := by
  induction m with
  | nil => simp [mapGet]
  | cons p m ih =>
    rw [mapGet_cons] at hget
    cases hpk : (p.1 == k) with
    | true => rw [hpk, if_pos rfl] at hget; exact absurd hget (by simp)
    | false =>
      rw [hpk, if_neg (by simp)] at hget
      cases hfp : f p with
      | true =>
        simp only [List.filter_cons, hfp, if_pos]
        rw [mapGet_cons, hpk]
        exact ih hget
      | false =>
        simp only [List.filter_cons, hfp]
        simpa using ih hget

theorem mapGet_filter_of_get_false {α : Type} (m : List (String × α))
    (f : String × α → Bool) (k : String) (a : α) (hwf : MapWF m)
    (hget : mapGet m k = some a) (hf : f (k, a) = false) :
    mapGet (m.filter f) k = none := by
  induction m with
  | nil => simp [mapGet] at hget
  | cons p m ih =>
    have hwf' : (p.1 :: mapKeys m).Nodup := hwf
    rw [List.nodup_cons] at hwf'
    obtain ⟨hwf1, hwf2⟩ := hwf'
    rw [mapGet_cons] at hget
    cases hpk : (p.1 == k) with
    | true =>
      rw [hpk, if_pos rfl] at hget
      have hk : p.1 = k := by simpa using hpk
      have hfp : f p = false := by
        have : p = (k, a) := by
          cases p
          simp_all
        rw [this]; exact hf
      simp only [List.filter_cons, hfp]
      have : mapGet m k = none := mapGet_eq_none_of_not_mem m k (hk ▸ hwf1)
      simpa using mapGet_filter_none m f k this
    | false =>
      rw [hpk, if_neg (by simp)] at hget
      cases hfp : f p with
      | true =>
        simp only [List.filter_cons, hfp, if_pos]
        rw [mapGet_cons, hpk]
        exact ih hwf2 hget
      | false =>
        simp only [List.filter_cons, hfp]
        simpa using ih hwf2 hget

theorem mem_mapKeys_update {α : Type} (m : List (String × α)) (k k2 : String) (v : α)
    (h : k2 ∈ mapKeys (mapUpdate m k v)) : k2 ∈ mapKeys m ∨ k2 = k := by
  simp only [mapUpdate, mapKeys, List.map_append, List.mem_append] at h
  cases h with
  | inl h =>
    left
    obtain ⟨p, hp, hk⟩ := List.mem_map.mp h
    exact List.mem_map.mpr ⟨p, (List.mem_filter.mp hp).1, hk⟩
  | inr h =>
    right
    simpa using h

theorem MapWF_filter {α : Type} (m : List (String × α)) (f : String × α → Bool)
    (hwf : MapWF m) : MapWF (m.filter f) :=
  List.Nodup.sublist ((m.filter_sublist).map Prod.fst) hwf

theorem not_mem_mapKeys_filter_ne {α : Type} (m : List (String × α)) (k : String) :
    k ∉ mapKeys (m.filter (fun p => !(p.1 == k))) := by
  intro h
  obtain ⟨p, hp, hk⟩ := List.mem_map.mp h
  have h2 := (List.mem_filter.mp hp).2
  rw [hk] at h2
  simp at h2

theorem MapWF_update {α : Type} (m : List (String × α)) (k : String) (v : α)
    (hwf : MapWF m) : MapWF (mapUpdate m k v) := by
  have h1 : MapWF (m.filter (fun p => !(p.1 == k))) := MapWF_filter _ _ hwf
  have h2 := not_mem_mapKeys_filter_ne m k
  have h3 : mapKeys (mapUpdate m k v) =
      mapKeys (m.filter (fun p => !(p.1 == k))) ++ [k] := by
    simp [mapUpdate, mapKeys]
  show (mapKeys (mapUpdate m k v)).Nodup
  rw [h3, List.nodup_append]
  refine ⟨h1, List.nodup_singleton k, ?_⟩
  intro a ha hb
  rw [List.mem_singleton] at hb
  subst hb
  exact h2 ha

theorem applyEvent_interval (c : Cache) (e : TimedEvent) :
    (applyEvent c e).interval = c.interval := by
  obtain ⟨time, ev⟩ := e
  cases ev with
  | add k v => rfl
  | tick => rfl

theorem runCache_interval (es : List TimedEvent) :
    ∀ c : Cache, (runCache c es).interval = c.interval := by
  induction es with
  | nil => intro c; rfl
  | cons e es ih =>
    intro c
    show (runCache (applyEvent c e) es).interval = c.interval
    rw [ih, applyEvent_interval]

theorem applyEvent_wf (c : Cache) (e : TimedEvent) (hwf : MapWF c.cache) :
    MapWF (applyEvent c e).cache := by
  obtain ⟨time, ev⟩ := e
  cases ev with
  | add k v => exact MapWF_update _ _ _ hwf
  | tick => exact MapWF_filter _ _ hwf

theorem runCache_wf (es : List TimedEvent) :
    ∀ c : Cache, MapWF c.cache → MapWF (runCache c es).cache := by
  induction es with
  | nil => intro c h; exact h
  | cons e es ih => intro c h; exact ih (applyEvent c e) (applyEvent_wf c e h)

theorem runCache_append (c : Cache) (l1 l2 : List TimedEvent) :
    runCache c (l1 ++ l2) = runCache (runCache c l1) l2 := by
  simp [runCache]

theorem hasAddOf_cons_add (k k2 : String) (v2 : Bytes) (time : Nat)
    (es : List TimedEvent) :
    hasAddOf k (⟨time, Event.add k2 v2⟩ :: es) = ((k2 == k) || hasAddOf k es) := rfl

theorem hasAddOf_cons_tick (k : String) (time : Nat) (es : List TimedEvent) :
    hasAddOf k (⟨time, Event.tick⟩ :: es) = hasAddOf k es := rfl

theorem runCache_keeps_fresh (k : String) (t : Nat) (v : Bytes) :
    ∀ (es : List TimedEvent) (c : Cache),
      0 < c.interval →
      mapGet c.cache k = some ⟨t, v⟩ →
      hasAddOf k es = false →
      (∀ e ∈ es, e.time < t + c.interval) →
      mapGet (runCache c es).cache k = some ⟨t, v⟩ := by
  intro es
  induction es with
  | nil => intro c _ hget _ _; exact hget
  | cons e es ih =>
    intro c hpos hget hna htime
    obtain ⟨time, ev⟩ := e
    cases ev with
    | add k2 v2 =>
      rw [hasAddOf_cons_add, Bool.or_eq_false_iff] at hna
      have hk2 : k ≠ k2 := by
        intro he
        rw [he] at hna
        simp at hna
      have hget' : mapGet (cacheAddState c time k2 v2).cache k = some ⟨t, v⟩ := by
        show mapGet (mapUpdate c.cache k2 ⟨time, v2⟩) k = some ⟨t, v⟩
        rw [mapGet_update_ne _ _ _ _ hk2]
        exact hget
      exact ih (cacheAddState c time k2 v2) hpos hget' hna.2
        (fun e2 he2 => htime e2 (List.mem_cons_of_mem _ he2))
    | tick =>
      rw [hasAddOf_cons_tick] at hna
      have hlt : time < t + c.interval :=
        htime ⟨time, Event.tick⟩ (List.mem_cons_self _ _)
      have hf : (fun p : String × cacheEntry =>
          !(decide (c.interval ≤ time - p.2.createdAt))) (k, ⟨t, v⟩) = true := by
        simp only [Bool.not_eq_true', decide_eq_false_iff_not]
        omega
      have hget' : mapGet (reapSweep c time).cache k = some ⟨t, v⟩ :=
        mapGet_filter_of_get_true _ _ _ _ hget hf
      exact ih (reapSweep c time) hpos hget' hna
        (fun e2 he2 => htime e2 (List.mem_cons_of_mem _ he2))

theorem runCache_none (k : String) :
    ∀ (es : List TimedEvent) (c : Cache),
      mapGet c.cache k = none →
      hasAddOf k es = false →
      mapGet (runCache c es).cache k = none := by
  intro es
  induction es with
  | nil => intro c hget _; exact hget
  | cons e es ih =>
    intro c hget hna
    obtain ⟨time, ev⟩ := e
    cases ev with
    | add k2 v2 =>
      rw [hasAddOf_cons_add, Bool.or_eq_false_iff] at hna
      have hk2 : k ≠ k2 := by
        intro he
        rw [he] at hna
        simp at hna
      have hget' : mapGet (cacheAddState c time k2 v2).cache k = none := by
        show mapGet (mapUpdate c.cache k2 ⟨time, v2⟩) k = none
        rw [mapGet_update_ne _ _ _ _ hk2]
        exact hget
      exact ih (cacheAddState c time k2 v2) hget' hna.2
    | tick =>
      rw [hasAddOf_cons_tick] at hna
      exact ih (reapSweep c time) (mapGet_filter_none _ _ _ hget) hna

theorem runCache_fresh_or_none (k : String) (t : Nat) (v : Bytes) :
    ∀ (es : List TimedEvent) (c : Cache),
      MapWF c.cache →
      (mapGet c.cache k = some ⟨t, v⟩ ∨ mapGet c.cache k = none) →
      hasAddOf k es = false →
      (mapGet (runCache c es).cache k = some ⟨t, v⟩ ∨
        mapGet (runCache c es).cache k = none) := by
  intro es
  induction es with
  | nil => intro c _ hor _; exact hor
  | cons e es ih =>
    intro c hwf hor hna
    obtain ⟨time, ev⟩ := e
    cases ev with
    | add k2 v2 =>
      rw [hasAddOf_cons_add, Bool.or_eq_false_iff] at hna
      have hk2 : k ≠ k2 := by
        intro he
        rw [he] at hna
        simp at hna
      have hor' : mapGet (cacheAddState c time k2 v2).cache k = some ⟨t, v⟩ ∨
          mapGet (cacheAddState c time k2 v2).cache k = none := by
        show mapGet (mapUpdate c.cache k2 ⟨time, v2⟩) k = some ⟨t, v⟩ ∨
          mapGet (mapUpdate c.cache k2 ⟨time, v2⟩) k = none
        rw [mapGet_update_ne _ _ _ _ hk2]
        exact hor
      exact ih (cacheAddState c time k2 v2)
        (applyEvent_wf c ⟨time, Event.add k2 v2⟩ hwf) hor' hna.2
    | tick =>
      rw [hasAddOf_cons_tick] at hna
      have hwf' : MapWF (reapSweep c time).cache :=
        applyEvent_wf c ⟨time, Event.tick⟩ hwf
      cases hor with
      | inl hsome =>
        by_cases hage : c.interval ≤ time - t
        · have hnone : mapGet (reapSweep c time).cache k = none :=
            mapGet_filter_of_get_false _ _ _ _ hwf hsome (by simp [hage])
          exact ih (reapSweep c time) hwf' (Or.inr hnone) hna
        · have hkeep : mapGet (reapSweep c time).cache k = some ⟨t, v⟩ :=
            mapGet_filter_of_get_true _ _ _ _ hsome (by simp [hage])
          exact ih (reapSweep c time) hwf' (Or.inl hkeep) hna
      | inr hnone =>
        exact ih (reapSweep c time) hwf'
          (Or.inr (mapGet_filter_none _ _ _ hnone)) hna

theorem count_mapKeys_update {α : Type} (m : List (String × α)) (k : String) (v : α) :
    (mapKeys (mapUpdate m k v)).count k = 1 := by
  have h3 : mapKeys (mapUpdate m k v) =
      mapKeys (m.filter (fun p => !(p.1 == k))) ++ [k] := by
    simp [mapUpdate, mapKeys]
  rw [h3, List.count_append]
  have h0 : (mapKeys (m.filter (fun p => !(p.1 == k)))).count k = 0 := by
    rw [List.count_eq_zero]
    exact not_mem_mapKeys_filter_ne m k
  rw [h0]
  simp

/-- Claim C2: on every wake of the reaper, exactly the entries whose age
`now - createdAt` has reached the interval are deleted and every younger
entry is kept, and the reaper wakes on the fixed period `interval` (the
`j`-th wake of `reapLoop` happens at time `(j+1)*interval`). -/
theorem reaper_sweep_exact (c : Cache) (now : Nat) (k : String) (i n j : Nat)
    (hwf : MapWF c.cache) :
    (mapGet (reapSweep c now).cache k =
      match mapGet c.cache k with
      | some e => if c.interval ≤ now - e.createdAt then none else some e
      | none => none) ∧
    (j < n → (reapLoopEvents i n)[j]? = some ⟨(j + 1) * i, Event.tick⟩) := by
  constructor
  · cases hget : mapGet c.cache k with
    | none => simpa using mapGet_filter_none _ _ _ hget
    | some e =>
      by_cases hage : c.interval ≤ now - e.createdAt
      · simpa [hage] using
          mapGet_filter_of_get_false _ _ _ _ hwf hget (by simp [hage])
      · simpa [hage] using
          mapGet_filter_of_get_true _ _ _ _ hget (by simp [hage])
  · intro hj
    simp [reapLoopEvents, hj]

/-- Claim C2 witness: a one-entry cache of interval 3 swept at time 5 loses
the entry of age 5, and the second wake of a reaper of interval 2 is at
time 4. -/
theorem reaper_sweep_exact_check :
    (mapGet (reapSweep ⟨[("a", ⟨0, [1]⟩)], 3⟩ 5).cache "a" =
      match mapGet (Cache.mk [("a", ⟨0, [1]⟩)] 3).cache "a" with
      | some e => if (Cache.mk [("a", ⟨0, [1]⟩)] 3).interval ≤ 5 - e.createdAt
          then none else some e
      | none => none) ∧
    (1 < 3 → (reapLoopEvents 2 3)[1]? = some ⟨(1 + 1) * 2, Event.tick⟩) :=
  reaper_sweep_exact ⟨[("a", ⟨0, [1]⟩)], 3⟩ 5 "a" 2 3 1 (by decide)

/-- Claim C3: on a non-nil cache, a CacheGet immediately after a
CacheAdd of (key, v) returns v with found=true and a nil error; after two
CacheAdds of the same key the second value wins. -/
theorem cacheGet_after_add_returns_last (c : Cache) (n1 n2 : Nat) (k : String)
    (v v1 v2 : Bytes) :
    (CacheGet ((CacheAdd (some c) n1 k v).1) k).2 = (some v, true, none) ∧
    (CacheGet ((CacheAdd ((CacheAdd (some c) n1 k v1).1) n2 k v2).1) k).2 =
      (some v2, true, none) := by
  constructor
  · simp [CacheAdd, CacheGet, cacheAddState, mapGet_update_self]
  · simp [CacheAdd, CacheGet, cacheAddState, mapGet_update_self]

/-- Claim C4: upserting r1 then r2 under the same name leaves exactly one
entry for that name in the registry's name listing, and PokemonGet then
returns r2 with found=true. -/
theorem pokedex_overwrite_unique (d : Pokedex) (name : String)
    (r1 r2 : PokemonStats) :
    ((PokemonGetAllCaught
        ((PokemonAdd ((PokemonAdd (some d) name r1).1) name r2).1)).2.1.count name
      = 1) ∧
    (PokemonGet ((PokemonAdd ((PokemonAdd (some d) name r1).1) name r2).1)
        name).2 = (r2, true, none) := by
  constructor
  · show (mapKeys (mapUpdate (mapUpdate d.pokemon name r1) name r2)).count name = 1
    exact count_mapKeys_update _ _ _
  · simp [PokemonAdd, PokemonGet, mapGet_update_self]

/-- Claim C5: on non-nil stores, looking up a key that is not present
returns found=false together with a nil error, for the cache and the
registry alike. -/
theorem absent_key_not_error (c : Cache) (d : Pokedex) (k name : String)
    (hc : mapGet c.cache k = none) (hd : mapGet d.pokemon name = none) :
    (CacheGet (some c) k).2 = (none, false, none) ∧
    (PokemonGet (some d) name).2 = (⟨"", 0, 0⟩, false, none) := by
  constructor
  · simp [CacheGet, hc]
  · simp [PokemonGet, hd]

/-- Claim C5 witness: looking up "x" in a fresh cache and a fresh pokedex. -/
theorem absent_key_not_error_check :
    (CacheGet (some (NewCache 5)) "x").2 = (none, false, none) ∧
    (PokemonGet (some NewPokedex) "x").2 = (⟨"", 0, 0⟩, false, none) :=
  absent_key_not_error (NewCache 5) NewPokedex "x" "x" rfl rfl

/-- Claim C6: CacheAdd and PokemonAdd return an error exactly when the
receiver is nil; on every non-nil store they return a nil error and store
the entry under the key with the fresh creation timestamp. -/
theorem add_error_iff_nil_receiver (oc : Option Cache) (od : Option Pokedex)
    (now : Nat) (k name : String) (v : Bytes) (st : PokemonStats) :
    ((CacheAdd oc now k v).2 ≠ none ↔ oc = none) ∧
    ((PokemonAdd od name st).2 ≠ none ↔ od = none) ∧
    (∀ c : Cache, (CacheAdd (some c) now k v).2 = none ∧
      ∃ c2, (CacheAdd (some c) now k v).1 = some c2 ∧
        mapGet c2.cache k = some ⟨now, v⟩) ∧
    (∀ d : Pokedex, (PokemonAdd (some d) name st).2 = none ∧
      ∃ d2, (PokemonAdd (some d) name st).1 = some d2 ∧
        mapGet d2.pokemon name = some st) := by
  refine ⟨?_, ?_, ?_, ?_⟩
  · cases oc <;> simp [CacheAdd]
  · cases od <;> simp [PokemonAdd]
  · intro c
    exact ⟨rfl, cacheAddState c now k v, rfl, mapGet_update_self _ _ _⟩
  · intro d
    exact ⟨rfl, ⟨mapUpdate d.pokemon name st⟩, rfl, mapGet_update_self _ _ _⟩

/-- Claim C7: CacheGet never changes the cache state: no entry's timestamp
or value is modified and no entry is added or removed, on nil and non-nil
caches alike. -/
theorem cacheGet_state_unchanged (c : Option Cache) (k : String) :
    (CacheGet c k).1 = c := by
  cases c with
  | none => rfl
  | some cc =>
    cases h : mapGet cc.cache k with
    | none => simp [CacheGet, h]
    | some e => simp [CacheGet, h]

/-- Claim C10: CacheGet performs no age check: a key present in the map is
returned with found=true even when its age has reached the interval, and it
is the reaper's sweep that removes such an entry. -/
theorem cacheGet_ignores_age (c : Cache) (k : String) (e : cacheEntry)
    (now : Nat) (hwf : MapWF c.cache) (hget : mapGet c.cache k = some e)
    (hage : c.interval ≤ now - e.createdAt) :
    (CacheGet (some c) k).2 = (some e.val, true, none) ∧
    mapGet (reapSweep c now).cache k = none := by
  constructor
  · simp [CacheGet, hget]
  · exact mapGet_filter_of_get_false _ _ _ _ hwf hget (by simp [hage])

/-- Claim C10 witness: an entry of age 3 in a cache of interval 3 is still
returned by CacheGet, while a sweep at that moment deletes it. -/
theorem cacheGet_ignores_age_check :
    (CacheGet (some ⟨[("a", ⟨0, [7]⟩)], 3⟩) "a").2 = (some [7], true, none) ∧
    mapGet (reapSweep ⟨[("a", ⟨0, [7]⟩)], 3⟩ 3).cache "a" = none :=
  cacheGet_ignores_age ⟨[("a", ⟨0, [7]⟩)], 3⟩ "a" ⟨0, [7]⟩ 3 (by decide)
    (by decide) (by decide)

theorem hasAddOf_append (k : String) (l1 l2 : List TimedEvent) :
    hasAddOf k (l1 ++ l2) = (hasAddOf k l1 || hasAddOf k l2) := by
  simp [hasAddOf]

theorem freshness_general (i t : Nat) (k : String) (v : Bytes) (c1 : Cache)
    (hint : c1.interval = i) (hwf1 : MapWF c1.cache)
    (hget1 : mapGet c1.cache k = some ⟨t, v⟩) (hi : 0 < i) :
    (∀ (esA : List TimedEvent) (t1 : Nat), hasAddOf k esA = false →
      (∀ e ∈ esA, e.time ≤ t1) → t1 < t + i →
      mapGet (runCache c1 esA).cache k = some ⟨t, v⟩) ∧
    (∀ (esB : List TimedEvent) (t2 : Nat), hasAddOf k esB = false →
      (∀ m2 : Nat, 1 ≤ m2 → t < m2 * i → m2 * i ≤ t2 →
        (⟨m2 * i, Event.tick⟩ : TimedEvent) ∈ esB) →
      t + 2 * i ≤ t2 →
      mapGet (runCache c1 esB).cache k = none) := by
  constructor
  · intro esA t1 hna htime ht1
    exact runCache_keeps_fresh k t v esA c1 (by rw [hint]; exact hi) hget1 hna
      (fun e he => by
        rw [hint]
        exact lt_of_le_of_lt (htime e he) ht1)
  · intro esB t2 hna hticks ht2
    obtain ⟨q, r, hqr, hr⟩ : ∃ q r, t = i * q + r ∧ r < i :=
      ⟨t / i, t % i, (Nat.div_add_mod t i).symm, Nat.mod_lt t hi⟩
    have hexp : (q + 2) * i = i * q + 2 * i := by ring
    have hm1 : 1 ≤ q + 2 := by omega
    have ht_lt : t < (q + 2) * i := by omega
    have hle : (q + 2) * i ≤ t2 := by omega
    have hmem := hticks (q + 2) hm1 ht_lt hle
    obtain ⟨l1, l2, hsplit⟩ := List.append_of_mem hmem
    rw [hsplit]
    rw [hsplit, hasAddOf_append, Bool.or_eq_false_iff] at hna
    have hna2 : hasAddOf k l2 = false := by
      have := hna.2
      rw [hasAddOf_cons_tick] at this
      exact this
    rw [runCache_append]
    have hwfA : MapWF (runCache c1 l1).cache := runCache_wf l1 c1 hwf1
    have hintA : (runCache c1 l1).interval = i := by rw [runCache_interval, hint]
    have hor1 := runCache_fresh_or_none k t v l1 c1 hwf1 (Or.inl hget1) hna.1
    have hnone : mapGet (reapSweep (runCache c1 l1) ((q + 2) * i)).cache k
        = none := by
      cases hor1 with
      | inl hsome =>
        apply mapGet_filter_of_get_false _ _ _ _ hwfA hsome
        simp only [Bool.not_eq_false', decide_eq_true_eq, hintA]
        omega
      | inr hnone1 => exact mapGet_filter_none _ _ _ hnone1
    show mapGet (runCache (reapSweep (runCache c1 l1) ((q + 2) * i)) l2).cache k
        = none
    exact runCache_none k l2 _ hnone hna2

/-- Claim C1: freshness bound.  With interval i > 0, after a key is inserted
at time t into a cache built by NewCache (by any prior trace), any later
trace without a re-insert of that key makes a CacheGet at time t1 < t + i
return the inserted value with found=true, while a trace whose reaper ticks
every i makes a CacheGet at time t2 >= t + 2*i return found=false. -/
theorem cache_freshness_bound (i t t1 t2 : Nat) (k : String) (v : Bytes)
    (es1 esA esB : List TimedEvent)
    (hi : 0 < i)
    (hA1 : hasAddOf k esA = false)
    (hA2 : ∀ e ∈ esA, e.time ≤ t1)
    (hA3 : t1 < t + i)
    (hB1 : hasAddOf k esB = false)
    (hB2 : ∀ e ∈ esB, e.time ≤ t2)
    (hB3 : ∀ m2 : Nat, 1 ≤ m2 → t < m2 * i → m2 * i ≤ t2 →
      (⟨m2 * i, Event.tick⟩ : TimedEvent) ∈ esB)
    (hB4 : t + 2 * i ≤ t2) :
    (CacheGet (some (runCache (runCache (NewCache i)
        (es1 ++ [⟨t, Event.add k v⟩])) esA)) k).2 = (some v, true, none) ∧
    (CacheGet (some (runCache (runCache (NewCache i)
        (es1 ++ [⟨t, Event.add k v⟩])) esB)) k).2 = (none, false, none) := by
  have hint : (runCache (NewCache i) (es1 ++ [⟨t, Event.add k v⟩])).interval
      = i := by
    rw [runCache_interval]
    rfl
  have hwf1 : MapWF (runCache (NewCache i)
      (es1 ++ [⟨t, Event.add k v⟩])).cache := by
    apply runCache_wf
    exact List.nodup_nil
  have hget1 : mapGet (runCache (NewCache i)
      (es1 ++ [⟨t, Event.add k v⟩])).cache k = some ⟨t, v⟩ := by
    rw [runCache_append]
    show mapGet (mapUpdate (runCache (NewCache i) es1).cache k ⟨t, v⟩) k = _
    exact mapGet_update_self _ _ _
  obtain ⟨hfresh, hgone⟩ :=
    freshness_general i t k v _ hint hwf1 hget1 hi
  constructor
  · have h := hfresh esA t1 hA1 hA2 hA3
    simp [CacheGet, h]
  · have h := hgone esB t2 hB1 hB3 hB4
    simp [CacheGet, h]

/-- Claim C1 witness: interval 1, key "a" inserted at time 0; a lookup at
time 0 with no events in between hits, and a lookup at time 2 after ticks at
times 1 and 2 misses. -/
theorem cache_freshness_bound_check :
    (CacheGet (some (runCache (runCache (NewCache 1)
        ([] ++ [⟨0, Event.add "a" [1]⟩])) [])) "a").2 = (some [1], true, none) ∧
    (CacheGet (some (runCache (runCache (NewCache 1)
        ([] ++ [⟨0, Event.add "a" [1]⟩]))
        [⟨1, Event.tick⟩, ⟨2, Event.tick⟩])) "a").2 = (none, false, none) :=
  cache_freshness_bound 1 0 0 2 "a" [1] [] []
    [⟨1, Event.tick⟩, ⟨2, Event.tick⟩]
    (by decide) (by decide) (by decide) (by decide) (by decide) (by decide)
    (by
      intro m2 h1 h2 h3
      have h4 : m2 ≤ 2 := by omega
      interval_cases m2 <;> decide)
    (by decide)

theorem runReg_from (ops : List RegOp) : ∀ d : Pokedex,
    ∃ d2 : Pokedex, runReg (some d) ops = some d2 ∧
      (∀ name2 ∈ mapKeys d2.pokemon,
        name2 ∈ mapKeys d.pokemon ∨ ∃ s, RegOp.add name2 s ∈ ops) ∧
      ((mapKeys d.pokemon).Nodup → (mapKeys d2.pokemon).Nodup) := by
  induction ops with
  | nil => exact fun d => ⟨d, rfl, fun n hn => Or.inl hn, fun h => h⟩
  | cons op ops ih =>
    intro d
    cases op with
    | add n s =>
      obtain ⟨d2, h1, h2, h3⟩ := ih ⟨mapUpdate d.pokemon n s⟩
      refine ⟨d2, h1, ?_, ?_⟩
      · intro name2 hn
        cases h2 name2 hn with
        | inl h =>
          cases mem_mapKeys_update _ _ _ _ h with
          | inl h => exact Or.inl h
          | inr h =>
            exact Or.inr ⟨s, by rw [h]; exact List.mem_cons_self _ _⟩
        | inr h =>
          obtain ⟨s2, hs2⟩ := h
          exact Or.inr ⟨s2, List.mem_cons_of_mem _ hs2⟩
      · intro hnd
        exact h3 (MapWF_update _ _ _ hnd)
    | get n =>
      have hstate : applyRegOp (some d) (RegOp.get n) = some d := by
        show (PokemonGet (some d) n).1 = some d
        cases h : mapGet d.pokemon n with
        | none => simp [PokemonGet, h]
        | some e => simp [PokemonGet, h]
      obtain ⟨d2, h1, h2, h3⟩ := ih d
      refine ⟨d2, ?_, ?_, h3⟩
      · show runReg (applyRegOp (some d) (RegOp.get n)) ops = some d2
        rw [hstate]
        exact h1
      · intro name2 hn
        cases h2 name2 hn with
        | inl h => exact Or.inl h
        | inr h =>
          obtain ⟨s2, hs2⟩ := h
          exact Or.inr ⟨s2, List.mem_cons_of_mem _ hs2⟩
    | list =>
      obtain ⟨d2, h1, h2, h3⟩ := ih d
      refine ⟨d2, h1, ?_, h3⟩
      intro name2 hn
      cases h2 name2 hn with
      | inl h => exact Or.inl h
      | inr h =>
        obtain ⟨s2, hs2⟩ := h
        exact Or.inr ⟨s2, List.mem_cons_of_mem _ hs2⟩

/-- Claim C9: in every registry state reachable from the empty registry of
NewPokedex by the program's operations, every present name was the argument
of a prior successful PokemonAdd, and names stay unique because re-adding
overwrites rather than duplicates. -/
theorem registry_names_from_adds (ops : List RegOp) :
    ∃ d2 : Pokedex, runReg (some NewPokedex) ops = some d2 ∧
      (∀ name2 ∈ mapKeys d2.pokemon, ∃ s, RegOp.add name2 s ∈ ops) ∧
      (mapKeys d2.pokemon).Nodup := by
  obtain ⟨d2, h1, h2, h3⟩ := runReg_from ops NewPokedex
  refine ⟨d2, h1, ?_, h3 (by simp [NewPokedex, mapKeys])⟩
  intro name2 hn
  cases h2 name2 hn with
  | inl h => simp [NewPokedex, mapKeys] at h
  | inr h => exact h
